import Mathlib

/-!
A shallow embedding of the Stack server interpreter (`src/main.rs` of
stack-community/stack-server) together with proofs about the claims of
its specification.

Modelling conventions:
* Rust `String` values are modelled as `List Char`; byte vectors as
  `List Nat`.
* Rust `f64` numbers are modelled as exact rationals (`ℚ`).  Every value
  appearing in the claims under study is a small integer, where `f64`
  arithmetic is exact, so this abstraction is faithful on the claim
  inputs.  Decimal rendering and string-to-number parsing are modelled
  for plain decimal literals (no exponents, `inf` or `NaN`).
* `HashMap` is modelled as an association list whose insert replaces an
  existing binding in place and otherwise appends; no claim depends on
  iteration order.
* Operations whose semantics live outside the interpreter (file I/O,
  networking, randomness, time, SQL, templates, threads) are not given a
  semantics: the command interpreter returns `none` for them, so every
  theorem only speaks about runs that never touch them.
-/

namespace StackServer

/-- JSON node, mirroring the `serde_json::Value` shape used by the source. -/
inductive Jv where
  | null : Jv
  | bool (b : Bool) : Jv
  | num (q : ℚ) : Jv
  | str (s : List Char) : Jv
  | arr (l : List Jv) : Jv
  | obj (fields : List (List Char × Jv)) : Jv
deriving Repr

/-- Runtime value: the `Type` enum of the source (`Number`, `String`, `Bool`,
`List`, `Json`, `Object`, `Error`, `Binary`). -/
inductive Ty where
  | num (q : ℚ) : Ty
  | str (s : List Char) : Ty
  | bool (b : Bool) : Ty
  | list (l : List Ty) : Ty
  | json (j : Jv) : Ty
  | object (name : List Char) (fields : List (List Char × Ty)) : Ty
  | error (e : List Char) : Ty
  | binary (bytes : List Nat) : Ty
deriving Repr

/-- Decimal digits of a natural number. -/
def natChars (n : Nat) : List Char := Nat.toDigits 10 n

/-- Decimal rendering of an integer. -/
def intChars (i : Int) : List Char :=
  if i < 0 then '-' :: natChars i.natAbs else natChars i.natAbs

/-- Rendering of the numeric payload.  Exact (`i.to_string()` in Rust) for
integral values; non-integral rationals are written `num/den`, a model
stand-in for Rust's shortest-roundtrip float printing that no claim under
study ever exercises. -/
def numChars (q : ℚ) : List Char :=
  if q.den = 1 then intChars q.num
  else intChars q.num ++ '/' :: natChars q.den

/-- Splits a leading run of ASCII digits, used by the decimal parser. -/
def splitDigits : List Char → List Char × List Char
  | [] => ([], [])
  | c :: cs =>
    if c.isDigit then
      let (a, b) := splitDigits cs
      (c :: a, b)
    else ([], c :: cs)

/-- Numeric value of a digit list. -/
def digitsVal (ds : List Char) : ℚ :=
  ((ds.foldl (fun a c => a * 10 + (c.toNat - '0'.toNat)) 0 : Nat) : ℚ)

/-- Fractional value of a digit list (digits after the decimal point). -/
def fracVal (ds : List Char) : ℚ :=
  (digitsVal ds) / (10 ^ ds.length)

/-- Unsigned part of `str::parse::<f64>`: digits with an optional decimal
point (`1`, `1.`, `1.5`, `.5`).  Exponents, `inf` and `NaN` are not
modelled; no claim input uses them. -/
def parseUnsigned (s : List Char) : Option ℚ :=
  let (ds, rest) := splitDigits s
  match rest with
  | [] => if ds.isEmpty then none else some (digitsVal ds)
  | '.' :: frac =>
    if frac.all Char.isDigit ∧ ¬(ds.isEmpty ∧ frac.isEmpty) then
      some (digitsVal ds + fracVal frac)
    else none
  | _ => none

/-- Model of `token.parse::<f64>()` for decimal literals. -/
def parseDec (s : List Char) : Option ℚ :=
  match s with
  | '+' :: rest => parseUnsigned rest
  | '-' :: rest => (parseUnsigned rest).map (fun q => -q)
  | _ => parseUnsigned s

mutual

/-- `Type::display` of the source. -/
def Ty.display : Ty → List Char
  | .num q => numChars q
  | .str s => '(' :: s ++ [')']
  | .bool b => if b then "true".toList else "false".toList
  | .list l => '[' :: (List.intercalate [' '] (Ty.displayList l)) ++ [']']
  | .json _ => "{}".toList
  | .error e => "error:".toList ++ e
  | .object n _ => "Object<".toList ++ n ++ ['>']
  | .binary i => "Binary<".toList ++ natChars i.length ++ ['>']

/-- Display forms of the elements of a list value. -/
def Ty.displayList : List Ty → List (List Char)
  | [] => []
  | t :: ts => Ty.display t :: Ty.displayList ts

end

/-- `Jv.as_str` of serde: `Some` only on string nodes.  (`serde_json` pretty
printing is external; `display` above renders any JSON node as `{}`, which
no claim under study observes.) -/
def Jv.asStr : Jv → Option (List Char)
  | .str s => some s
  | _ => none

/-- `Jv.as_f64` of serde: `Some` only on numeric nodes. -/
def Jv.asF64 : Jv → Option ℚ
  | .num q => some q
  | _ => none

/-- `Jv.as_bool` of serde: `Some` only on bool nodes. -/
def Jv.asBool : Jv → Option Bool
  | .bool b => some b
  | _ => none

/-- `Type::get_string` of the source. -/
def Ty.getString : Ty → List Char
  | .str s => s
  | .num q => numChars q
  | .bool b => if b then "true".toList else "false".toList
  | .list l => Ty.display (.list l)
  | .json j => (j.asStr).getD []
  | .error e => "error:".toList ++ e
  | .object n _ => "Object<".toList ++ n ++ ['>']
  | .binary i => "Binary<".toList ++ natChars i.length ++ ['>']

/-- `Type::get_number` of the source (`parse().unwrap_or(0.0)` on strings). -/
def Ty.getNumber : Ty → ℚ
  | .str s => (parseDec s).getD 0
  | .num q => q
  | .bool b => if b then 1 else 0
  | .json j => (j.asF64).getD 0
  | .list l => l.length
  | .error e => (parseDec e).getD 0
  | .object _ m => m.length
  | .binary i => i.length

/-- `bool::from_str` accepts exactly `true` and `false`; `unwrap_or(false)`. -/
def parseBoolD (s : List Char) : Bool := s = "true".toList

/-- `Type::get_bool` of the source.  Note the `Object` arm: the source
returns `object.is_empty()`, so an empty field map coerces to `true`. -/
def Ty.getBool : Ty → Bool
  | .str s => ¬s.isEmpty
  | .num q => q ≠ 0
  | .bool b => b
  | .list l => ¬l.isEmpty
  | .json j => (j.asBool).getD false
  | .error e => parseBoolD e
  | .object _ m => m.isEmpty
  | .binary i => ¬i.isEmpty

/-- `Type::get_list` of the source. -/
def Ty.getList : Ty → List Ty
  | .str s => s.map (fun c => Ty.str [c])
  | .num q => [Ty.num q]
  | .bool b => [Ty.bool b]
  | .list l => l
  | .json j =>
    match j with
    | .obj fields => fields.map (fun kv => Ty.str kv.1)
    | _ => []
  | .error e => [Ty.error e]
  | .object _ m => m.map (fun kv => kv.2)
  | .binary i => i.map (fun b => Ty.num b)

/-- `Type::get_json` of the source (string parsing of JSON is external; the
model keeps the `Json` arm and the catch-all default). -/
def Ty.getJson : Ty → Jv
  | .json j => j
  | _ => .obj []

/-! ## Lexer (`Executor::analyze_syntax`) -/

/-- Scanner state of `analyze_syntax` and of the string-escape pass of
`evaluate_program`: the temporary buffer plus the four counters/flags. -/
structure LexSt where
  buffer : List Char
  brackets : Int
  parens : Int
  hash : Bool
  escape : Bool
deriving Repr

/-- Whitespace normalisation: `code.replace(['\n','\t','\r','　'], " ")`. -/
def normChar (c : Char) : Char :=
  if c = '\n' ∨ c = '\t' ∨ c = '\r' ∨ c = '　' then ' ' else c

/-- One character of the `analyze_syntax` scan.  Returns the new state and
the tokens flushed by this character (empty or a singleton).  The `match`
arms of the source are translated in order into an `if` chain. -/
def lexStep (st : LexSt) (c : Char) : LexSt × List (List Char) :=
  if c = '\\' ∧ ¬st.escape then
    ({ st with escape := true }, [])
  else if c = '(' ∧ ¬st.hash ∧ ¬st.escape then
    ({ st with brackets := st.brackets + 1, buffer := st.buffer ++ ['('] }, [])
  else if c = ')' ∧ ¬st.hash ∧ ¬st.escape then
    ({ st with brackets := st.brackets - 1, buffer := st.buffer ++ [')'] }, [])
  else if c = '#' ∧ ¬st.hash ∧ ¬st.escape then
    ({ st with hash := true, buffer := st.buffer ++ ['#'] }, [])
  else if c = '#' ∧ st.hash ∧ ¬st.escape then
    ({ st with hash := false, buffer := st.buffer ++ ['#'] }, [])
  else if c = '[' ∧ ¬st.hash ∧ st.brackets = 0 ∧ ¬st.escape then
    ({ st with parens := st.parens + 1, buffer := st.buffer ++ ['['] }, [])
  else if c = ']' ∧ ¬st.hash ∧ st.brackets = 0 ∧ ¬st.escape then
    ({ st with parens := st.parens - 1, buffer := st.buffer ++ [']'] }, [])
  else if c = ' ' ∧ ¬st.hash ∧ st.parens = 0 ∧ st.brackets = 0 ∧ ¬st.escape then
    if st.buffer.isEmpty then (st, []) else ({ st with buffer := [] }, [st.buffer])
  else
    let buf :=
      if st.parens = 0 ∧ st.brackets = 0 ∧ ¬st.hash then
        if st.escape then
          if c = 'n' then st.buffer ++ ['\\', 'n']
          else if c = 't' then st.buffer ++ ['\\', 't']
          else if c = 'r' then st.buffer ++ ['\\', 'r']
          else st.buffer ++ [c]
        else st.buffer ++ [c]
      else
        (if st.escape then st.buffer ++ ['\\'] else st.buffer) ++ [c]
    ({ st with buffer := buf, escape := false }, [])

/-- Runs the scanner over a character list, concatenating flushed tokens. -/
def lexRun (st : LexSt) : List Char → LexSt × List (List Char)
  | [] => (st, [])
  | c :: cs =>
    let (st1, e) := lexStep st c
    let (st2, out) := lexRun st1 cs
    (st2, e ++ out)

/-- Initial scanner state. -/
def lexInit : LexSt := ⟨[], 0, 0, false, false⟩

/-- `Executor::analyze_syntax`: normalise whitespace, scan, and append a
final non-empty buffer as a trailing token. -/
def tokenize (code : List Char) : List (List Char) :=
  let (st, out) := lexRun lexInit (code.map normChar)
  if st.buffer.isEmpty then out else out ++ [st.buffer]

/-- One character of the string-escape pass on the contents of a `(`…`)`
token (the inner state machine of `evaluate_program`): identical to the
lexer arms except that there is no space-flush arm. -/
def escStep (st : LexSt) (c : Char) : LexSt :=
  if c = '\\' ∧ ¬st.escape then
    { st with escape := true }
  else if c = '(' ∧ ¬st.hash ∧ ¬st.escape then
    { st with brackets := st.brackets + 1, buffer := st.buffer ++ ['('] }
  else if c = ')' ∧ ¬st.hash ∧ ¬st.escape then
    { st with brackets := st.brackets - 1, buffer := st.buffer ++ [')'] }
  else if c = '#' ∧ ¬st.hash ∧ ¬st.escape then
    { st with hash := true, buffer := st.buffer ++ ['#'] }
  else if c = '#' ∧ st.hash ∧ ¬st.escape then
    { st with hash := false, buffer := st.buffer ++ ['#'] }
  else if c = '[' ∧ ¬st.hash ∧ st.brackets = 0 ∧ ¬st.escape then
    { st with parens := st.parens + 1, buffer := st.buffer ++ ['['] }
  else if c = ']' ∧ ¬st.hash ∧ st.brackets = 0 ∧ ¬st.escape then
    { st with parens := st.parens - 1, buffer := st.buffer ++ [']'] }
  else
    let buf :=
      if st.parens = 0 ∧ st.brackets = 0 ∧ ¬st.hash then
        if st.escape then
          if c = 'n' then st.buffer ++ ['\\', 'n']
          else if c = 't' then st.buffer ++ ['\\', 't']
          else if c = 'r' then st.buffer ++ ['\\', 'r']
          else st.buffer ++ [c]
        else st.buffer ++ [c]
      else
        (if st.escape then st.buffer ++ ['\\'] else st.buffer) ++ [c]
    { st with buffer := buf, escape := false }

/-- String-escape pass of `evaluate_program` on the inner text of a string
literal token. -/
def strEscape (s : List Char) : List Char :=
  (s.foldl escStep ⟨[], 0, 0, false, false⟩).buffer

/-! ## The `error:` literal -/

/-- `token.replace("error:", "")`: removes every (non-overlapping,
left-to-right) occurrence of `error:`. -/
def replaceErr : List Char → List Char
  | 'e' :: 'r' :: 'r' :: 'o' :: 'r' :: ':' :: rest => replaceErr rest
  | c :: cs => c :: replaceErr cs
  | [] => []

/-- Whether `error:` occurs anywhere in a string. -/
def occursErr : List Char → Bool
  | 'e' :: 'r' :: 'r' :: 'o' :: 'r' :: ':' :: _ => true
  | _ :: cs => occursErr cs
  | [] => false

/-! ## Executor state -/

/-- Execution mode (`Mode` of the source); it only gates logging. -/
inductive Mode where
  | script : Mode
  | debug : Mode
deriving Repr

/-- `Executor`: data stack (head is the top), variable memory, mode. -/
structure Executor where
  stack : List Ty
  memory : List (List Char × Ty)
  mode : Mode
deriving Repr

/-- `Executor::pop_stack`: stack underflow yields an empty `String`
(the source also logs a warning, which the model drops). -/
def popStack (ex : Executor) : Ty × Executor :=
  match ex.stack with
  | [] => (Ty.str [], ex)
  | v :: rest => (v, { ex with stack := rest })

/-- Push a value on the data stack. -/
def push (v : Ty) (ex : Executor) : Executor :=
  { ex with stack := v :: ex.stack }

/-- `HashMap` upsert (`entry(...).and_modify(...).or_insert(...)` and plain
`insert` both replace an existing binding, else add one). -/
def memInsert (k : List Char) (v : Ty) : List (List Char × Ty) → List (List Char × Ty)
  | [] => [(k, v)]
  | (k', v') :: rest => if k' = k then (k, v) :: rest else (k', v') :: memInsert k v rest

/-- `HashMap::get`. -/
def memGet (k : List Char) : List (List Char × Ty) → Option Ty
  | [] => none
  | (k', v) :: rest => if k' = k then some v else memGet k rest

/-! ## The `instance` command -/

/-- Outcome of the field loop of `instance`: either an `instance-shortage`
early return, or the finished field map.  `stack` carries any
`instance-default` errors pushed along the way. -/
inductive InstRes where
  | shortage (stack : List Ty)
  | done (obj : List (List Char × Ty)) (stack : List Ty)

/-- The field loop of `instance` over `class[1..]`.  A one-element entry
binds the next positional datum (early return `instance-shortage` when the
data list is exhausted); a two-or-more-element entry binds its literal
second element; an empty entry pushes `instance-default` on the data stack
and the loop continues. -/
def instLoop : List Ty → List Ty → Nat → List (List Char × Ty) → List Ty → InstRes
  | [], _, _, obj, stk => .done obj stk
  | item :: items, data, index, obj, stk =>
    match item.getList with
    | [k] =>
      match data.get? index with
      | none => .shortage stk
      | some v => instLoop items data (index + 1) (memInsert k.getString v obj) stk
    | k :: v :: _ => instLoop items data index (memInsert k.getString v obj) stk
    | [] => instLoop items data index obj (Ty.error ("instance-default".toList) :: stk)

/-- The `instance` command: pops the data list, then the class list; an
empty class yields `Error instance-name`; otherwise runs the field loop and
pushes the `Object` (unless the loop returned early on shortage). -/
def instanceCmd (ex : Executor) : Executor :=
  let (dataV, ex1) := popStack ex
  let data := dataV.getList
  let (classV, ex2) := popStack ex1
  match classV.getList with
  | [] => push (Ty.error ("instance-name".toList)) ex2
  | nameV :: items =>
    let name := nameV.getString
    match instLoop items data 0 [] ex2.stack with
    | .shortage stk => { ex2 with stack := Ty.error ("instance-shortage".toList) :: stk }
    | .done obj stk => { ex2 with stack := Ty.object name obj :: stk }

/-! ## Evaluator -/

/-- Pop `n` values off the stack in order (the pop loop of the list-literal
branch of `evaluate_program`). -/
def popN : Nat → Executor → List Ty × Executor
  | 0, ex => ([], ex)
  | n + 1, ex =>
    let (v, ex1) := popStack ex
    let (vs, ex2) := popN n ex1
    (v :: vs, ex2)

/-- Command names of the source whose semantics are external to this model
(I/O, randomness, time, regex, JSON, SQL, templates, threads, server, … and
the arithmetic on `f64`).  The interpreter returns `none` on them, so no
theorem speaks about runs using them; they are nevertheless listed so that
the unknown-command fallback (push the token as a `String`) stays faithful. -/
def externalCmds : List String :=
  ["add", "sub", "mul", "div", "mod", "pow", "round", "sin", "cos", "tan",
   "and", "or", "not", "equal", "less", "rand", "shuffle", "repeat",
   "decode", "encode", "concat", "replace", "split", "case", "join", "find",
   "regex", "write-file", "read-file", "read-binary", "input", "print",
   "println", "args-cmd", "eval", "if", "while", "thread", "exit", "insert",
   "index", "sort", "reverse", "for", "range", "len", "map", "filter",
   "size-stack", "var", "type", "cast", "mem", "free", "now-time", "sleep",
   "property", "method", "modify", "all", "sys-info", "get-json",
   "set-json", "sql", "template", "start-server"]

/-- The element loop of `reduce`, parameterised by the re-entry into the
evaluator (`recur` is the fuelled `evaluate_program`): bind the loop
variable, evaluate the body, store the popped top into the accumulator
slot; at the end push the accumulator value and reset the slot to the
empty `String`. -/
def reduceLoopWith (recur : Executor → List Char → Option Executor)
    (code nowVar acc : List Char) : Executor → List Ty → Option Executor
  | ex, [] =>
    let r := (memGet acc ex.memory).getD (Ty.str [])
    some { ex with stack := r :: ex.stack, memory := memInsert acc (Ty.str []) ex.memory }
  | ex, x :: rest =>
    match recur { ex with memory := memInsert nowVar x ex.memory } code with
    | none => none
    | some ex2 =>
      let (r, ex3) := popStack ex2
      reduceLoopWith recur code nowVar acc
        { ex3 with memory := memInsert acc r ex3.memory } rest

/-- `Executor::execute_command` for the modelled commands, parameterised by
the re-entry into the evaluator; external commands give `none`; anything
not a command of the source is pushed back as a `String` (the
unknown-command fallback). -/
def execCommandWith (recur : Executor → List Char → Option Executor)
    (ex : Executor) (cmd : List Char) : Option Executor :=
  match String.mk cmd with
  | "get" =>
    let (iv, ex1) := popStack ex
    let index := iv.getNumber.floor.toNat
    let (lv, ex2) := popStack ex1
    let l := lv.getList
    if h : index < l.length then some (push (l.get ⟨index, h⟩) ex2)
    else some (push (Ty.error ("index-out-range".toList)) ex2)
  | "set" =>
    let (value, ex1) := popStack ex
    let (iv, ex2) := popStack ex1
    let index := iv.getNumber.floor.toNat
    let (lv, ex3) := popStack ex2
    let l := lv.getList
    if index < l.length then some (push (Ty.list (l.set index value)) ex3)
    else some (push (Ty.error ("index-out-range".toList)) ex3)
  | "del" =>
    let (iv, ex1) := popStack ex
    let index := iv.getNumber.floor.toNat
    let (lv, ex2) := popStack ex1
    let l := lv.getList
    if index < l.length then some (push (Ty.list (l.eraseIdx index)) ex2)
    else some (push (Ty.error ("index-out-range".toList)) ex2)
  | "append" =>
    let (d, ex1) := popStack ex
    let (lv, ex2) := popStack ex1
    some (push (Ty.list (lv.getList ++ [d])) ex2)
  | "reduce" =>
    let (cv, ex1) := popStack ex
    let code := cv.getString
    let (nv, ex2) := popStack ex1
    let nowVar := nv.getString
    let (av, ex3) := popStack ex2
    let acc := av.getString
    let (lv, ex4) := popStack ex3
    let l := lv.getList
    reduceLoopWith recur code nowVar acc
      { ex4 with memory := memInsert acc (Ty.str []) ex4.memory } l
  | "pop" => some (popStack ex).2
  | "copy" =>
    let (d, ex1) := popStack ex
    some (push d (push d ex1))
  | "swap" =>
    let (b, ex1) := popStack ex
    let (a, ex2) := popStack ex1
    some (push a (push b ex2))
  | "instance" => some (instanceCmd ex)
  | s => if externalCmds.contains s then none else some (push (Ty.str cmd) ex)

/-- One token of `evaluate_program`, parameterised by the re-entry into the
evaluator: literal recognition in source order (number, bool, string,
list, `error:`, variable, comment, command).  An empty token indexes
`chars[0]` out of bounds in the source (a panic), modelled as `none`. -/
def evalTokenWith (recur : Executor → List Char → Option Executor)
    (ex : Executor) : List Char → Option Executor
  | [] => none
  | c :: cs =>
    let t := c :: cs
    let lastc := (c :: cs).getLast (List.cons_ne_nil c cs)
    match parseDec t with
    | some q => some (push (Ty.num q) ex)
    | none =>
      if t = "true".toList ∨ t = "false".toList then
        some (push (Ty.bool (parseBoolD t)) ex)
      else if c = '(' ∧ lastc = ')' then
        some (push (Ty.str (strEscape (t.drop 1).dropLast)) ex)
      else if c = '[' ∧ lastc = ']' then
        let oldLen := ex.stack.length
        match recur ex ((t.drop 1).dropLast) with
        | none => none
        | some ex1 =>
          let (lst, ex2) := popN (ex1.stack.length - oldLen) ex1
          some (push (Ty.list lst.reverse) ex2)
      else if "error:".toList.isPrefixOf t then
        some (push (Ty.error (replaceErr t)) ex)
      else
        match memGet t ex.memory with
        | some v => some (push v ex)
        | none =>
          if c = '#' ∧ lastc = '#' then some ex
          else execCommandWith recur ex t

/-- The token loop of `evaluate_program`. -/
def evalTokensWith (recur : Executor → List Char → Option Executor) :
    Executor → List (List Char) → Option Executor
  | ex, [] => some ex
  | ex, t :: ts =>
    match evalTokenWith recur ex t with
    | some ex1 => evalTokensWith recur ex1 ts
    | none => none

/-- `Executor::evaluate_program`, fuelled: tokenize, then process each
token.  The fuel decreases exactly at each re-entry into
`evaluate_program` (list literals and the `reduce` body); `none` means out
of fuel, an empty-token panic, or an external command. -/
def evalProgram : Nat → Executor → List Char → Option Executor
  | 0, _, _ => none
  | f + 1, ex, code => evalTokensWith (evalProgram f) ex (tokenize code)

/-- Token processing at a given fuel. -/
def evalToken (f : Nat) : Executor → List Char → Option Executor :=
  evalTokenWith (evalProgram f)

/-- Command execution at a given fuel. -/
def execCommand (f : Nat) : Executor → List Char → Option Executor :=
  fun ex cmd => execCommandWith (evalProgram f) ex cmd

/-- The `reduce` element loop at a given fuel. -/
def reduceLoop (f : Nat) (code nowVar acc : List Char) :
    Executor → List Ty → Option Executor :=
  reduceLoopWith (evalProgram f) code nowVar acc

/-! ## HTTP response emission (`Executor::handle`, matched-route branch) -/

/-- A write on the client socket: either a formatted text response or the
binary response (header bytes followed by the raw body bytes). -/
inductive HttpWrite where
  | text (s : List Char)
  | binaryResp (header : List Char) (bytes : List Nat)
deriving Repr

/-- The response-emission phase of `Executor::handle` after the matched
route's handler has run (source lines 1426–1452): pop the response value;
if it is `Binary`, write the charset-free binary response (popping the MIME
string), and — the branch does not return — fall through to the
unconditional final write, which pops again for its MIME string and uses
the response value's string form as body. -/
def handleRespond (ex : Executor) : List HttpWrite × Executor :=
  let (responseValue, ex1) := popStack ex
  let binWrites :=
    match responseValue with
    | Ty.binary i =>
      let (m1, ex2) := popStack ex1
      ([HttpWrite.binaryResp
          ("HTTP/1.1 200 OK\r\nContent-Type: ".toList ++ m1.getString ++ ";\r\n\r\n".toList)
          i], ex2)
    | _ => ([], ex1)
  let (ws, ex2) := binWrites
  let (m2, ex3) := popStack ex2
  (ws ++ [HttpWrite.text
      ("HTTP/1.1 200 OK\r\nContent-Type: ".toList ++ m2.getString
        ++ "; charset=utf-8\r\n\r\n".toList ++ responseValue.getString)], ex3)

/-! ## General helper lemmas -/

theorem memGet_memInsert_self (k : List Char) (v : Ty) (m : List (List Char × Ty)) :
    memGet k (memInsert k v m) = some v := by
  induction m with
  | nil => simp [memInsert, memGet]
  | cons kv rest ih =>
    obtain ⟨k', v'⟩ := kv
    by_cases h : k' = k
    · simp [memInsert, memGet, h]
    · simp [memInsert, memGet, h, ih]

theorem popN_take (n : Nat) (s : List Ty) (mem : List (List Char × Ty)) (mo : Mode)
    (h : n ≤ s.length) :
    popN n ⟨s, mem, mo⟩ = (s.take n, ⟨s.drop n, mem, mo⟩) := by
  induction n generalizing s with
  | zero => simp [popN]
  | succ k ih =>
    cases s with
    | nil => simp at h
    | cons a rest =>
      have hk : k ≤ rest.length := by simpa using h
      simp [popN, popStack, ih rest hk]

/-! ## Claims -/

/-- C1: for every Object value, `get_bool` returns true if and only if the
field map is empty; in particular a non-empty Object coerces to `false`. -/
theorem c1_object_bool :
    (∀ (n : List Char) (m : List (List Char × Ty)),
      (Ty.object n m).getBool = true ↔ m = []) ∧
    (∀ (n : List Char) (m : List (List Char × Ty)),
      m ≠ [] → (Ty.object n m).getBool = false) := by
  constructor
  · intro n m
    cases m <;> simp [Ty.getBool]
  · intro n m h
    cases m with
    | nil => exact absurd rfl h
    | cons kv rest => simp [Ty.getBool]

/-- C1 witness: coercing a concrete non-empty Object to bool yields false. -/
theorem c1_object_bool_witness :
    (Ty.object ("pt".toList) [("x".toList, Ty.num 1)]).getBool = false :=
  c1_object_bool.2 ("pt".toList) [("x".toList, Ty.num 1)] (by simp)

/-- C2: at a stack whose top is a Binary value, the matched-route response
phase of `Executor::handle` emits TWO responses, not one: the charset-free
binary response, and then (because the `if let Type::Binary` branch does
not return) a second 200 response whose MIME string is popped from what is
left of the stack and whose body is the `Binary<len>` string form.  This
exhibits the code bug against the claim that exactly one response is
emitted. -/
theorem c2_binary_double_write :
    handleRespond ⟨[Ty.binary [1, 2, 3], Ty.str ("image/png".toList),
        Ty.str ("text/html".toList)], [], Mode.script⟩
      = ([HttpWrite.binaryResp
            ("HTTP/1.1 200 OK\r\nContent-Type: image/png;\r\n\r\n".toList) [1, 2, 3],
          HttpWrite.text
            ("HTTP/1.1 200 OK\r\nContent-Type: text/html; charset=utf-8\r\n\r\nBinary<3>".toList)],
         ⟨[], [], Mode.script⟩) ∧
    (handleRespond ⟨[Ty.binary [1, 2, 3], Ty.str ("image/png".toList),
        Ty.str ("text/html".toList)], [], Mode.script⟩).1.length = 2 := by
  exact ⟨rfl, rfl⟩

/-- C4 counterexample: with class `[(pt) ()]` (the entry `()` coerces to an
empty list, hence is malformed) and empty data, `instance` pushes
`Error instance-default` but then still pushes the Object on top of it —
refuting that in the malformed-entry case the Error is the result with no
Object pushed. -/
theorem c4_instance_counterexample :
    instanceCmd ⟨[Ty.list [], Ty.list [Ty.str ("pt".toList), Ty.str []]], [], Mode.script⟩
      = ⟨[Ty.object ("pt".toList) [], Ty.error ("instance-default".toList)], [], Mode.script⟩ ∧
    ∃ name fields rest,
      (instanceCmd ⟨[Ty.list [], Ty.list [Ty.str ("pt".toList), Ty.str []]], [],
          Mode.script⟩).stack = Ty.object name fields :: rest :=
  ⟨rfl, "pt".toList, [], [Ty.error ("instance-default".toList)], rfl⟩

/-- C4 amended: empty class pushes `Error instance-name` alone; a positional
shortage pushes `Error instance-shortage` alone (the partial object is
discarded); but a malformed class entry only pushes `Error instance-default`
and the loop continues, so the Object is still pushed above any such
errors. -/
theorem c4_instance_errors (ex : Executor) (dV cV : Ty) (s : List Ty)
    (h : ex.stack = dV :: cV :: s) :
    (cV.getList = [] →
      instanceCmd ex = { ex with stack := Ty.error ("instance-name".toList) :: s }) ∧
    (∀ nameV items stk, cV.getList = nameV :: items →
      instLoop items dV.getList 0 [] s = .shortage stk →
      instanceCmd ex = { ex with stack := Ty.error ("instance-shortage".toList) :: stk }) ∧
    (∀ nameV items obj stk, cV.getList = nameV :: items →
      instLoop items dV.getList 0 [] s = .done obj stk →
      instanceCmd ex = { ex with stack := Ty.object nameV.getString obj :: stk }) := by
  obtain ⟨st, mem, mo⟩ := ex
  simp only at h
  subst h
  refine ⟨fun hc => ?_, fun nameV items stk hc hl => ?_, fun nameV items obj stk hc hl => ?_⟩
  · simp [instanceCmd, popStack, push, hc]
  · simp [instanceCmd, popStack, push, hc, hl]
  · simp [instanceCmd, popStack, push, hc, hl]

/-- C4 witness: a class whose single field entry has no positional datum
yields `Error instance-shortage` as the sole result. -/
theorem c4_instance_errors_witness :
    instanceCmd ⟨[Ty.list [], Ty.list [Ty.str ("pt".toList), Ty.list [Ty.str ("x".toList)]]],
        [], Mode.script⟩
      = ⟨[Ty.error ("instance-shortage".toList)], [], Mode.script⟩ :=
  (c4_instance_errors
      ⟨[Ty.list [], Ty.list [Ty.str ("pt".toList), Ty.list [Ty.str ("x".toList)]]], [],
        Mode.script⟩
      (Ty.list []) (Ty.list [Ty.str ("pt".toList), Ty.list [Ty.str ("x".toList)]]) [] rfl).2.1
    (Ty.str ("pt".toList)) [Ty.list [Ty.str ("x".toList)]] [] rfl rfl

/-- C6 counterexample: on the empty stack, `copy` then `pop` leaves
`[String ""]` (the underflow default got copied), and `swap` twice leaves
`[String "", String ""]` — neither is the original empty stack. -/
theorem c6_stack_ops_counterexample :
    ((execCommand 1 ⟨[], [], Mode.script⟩ ("copy".toList)).bind
        (fun e => execCommand 1 e ("pop".toList))
      = some ⟨[Ty.str []], [], Mode.script⟩ ∧ [Ty.str []] ≠ ([] : List Ty)) ∧
    ((execCommand 1 ⟨[], [], Mode.script⟩ ("swap".toList)).bind
        (fun e => execCommand 1 e ("swap".toList))
      = some ⟨[Ty.str [], Ty.str []], [], Mode.script⟩ ∧
      [Ty.str [], Ty.str []] ≠ ([] : List Ty)) :=
  ⟨⟨rfl, by simp⟩, ⟨rfl, by simp⟩⟩

/-- C6 amended: on a stack with at least one value, `copy` then `pop` is the
identity on the executor, and on a stack with at least two values, `swap`
twice is the identity. -/
theorem c6_stack_ops (f g : Nat) (ex : Executor) (a b : Ty) (rest : List Ty) :
    (ex.stack = a :: rest →
      (execCommand f ex ("copy".toList)).bind (fun e => execCommand g e ("pop".toList))
        = some ex) ∧
    (ex.stack = a :: b :: rest →
      (execCommand f ex ("swap".toList)).bind (fun e => execCommand g e ("swap".toList))
        = some ex) := by
  obtain ⟨st, mem, mo⟩ := ex
  constructor
  · intro h
    simp only at h
    subst h
    rfl
  · intro h
    simp only at h
    subst h
    rfl

/-- C6 witness: the amended identities at a concrete two-value stack. -/
theorem c6_stack_ops_witness :
    ((execCommand 1 ⟨[Ty.num 1, Ty.num 2], [], Mode.script⟩ ("copy".toList)).bind
        (fun e => execCommand 1 e ("pop".toList))
      = some ⟨[Ty.num 1, Ty.num 2], [], Mode.script⟩) ∧
    ((execCommand 1 ⟨[Ty.num 1, Ty.num 2], [], Mode.script⟩ ("swap".toList)).bind
        (fun e => execCommand 1 e ("swap".toList))
      = some ⟨[Ty.num 1, Ty.num 2], [], Mode.script⟩) :=
  ⟨(c6_stack_ops 1 1 ⟨[Ty.num 1, Ty.num 2], [], Mode.script⟩ (Ty.num 1) (Ty.num 1)
      [Ty.num 2]).1 rfl,
    (c6_stack_ops 1 1 ⟨[Ty.num 1, Ty.num 2], [], Mode.script⟩ (Ty.num 1) (Ty.num 2) []).2 rfl⟩

/-- C8: with a Number index on top of a List, `get`, `set` and `del` push
`Error index-out-range` exactly when the index (converted by the `as usize`
truncating cast, i.e. `floor` clamped at zero) is not below the list
length; otherwise they push the element, the updated list, or the list
with the element removed. -/
theorem c8_index_out_range (f : Nat) (ex : Executor) (n : ℚ) (l : List Ty) (v : Ty)
    (s : List Ty) :
    (ex.stack = Ty.num n :: Ty.list l :: s →
      (l.length ≤ n.floor.toNat →
        execCommand f ex ("get".toList)
          = some { ex with stack := Ty.error ("index-out-range".toList) :: s }) ∧
      (∀ h : n.floor.toNat < l.length,
        execCommand f ex ("get".toList)
          = some { ex with stack := l.get ⟨n.floor.toNat, h⟩ :: s })) ∧
    (ex.stack = v :: Ty.num n :: Ty.list l :: s →
      (l.length ≤ n.floor.toNat →
        execCommand f ex ("set".toList)
          = some { ex with stack := Ty.error ("index-out-range".toList) :: s }) ∧
      (n.floor.toNat < l.length →
        execCommand f ex ("set".toList)
          = some { ex with stack := Ty.list (l.set n.floor.toNat v) :: s })) ∧
    (ex.stack = Ty.num n :: Ty.list l :: s →
      (l.length ≤ n.floor.toNat →
        execCommand f ex ("del".toList)
          = some { ex with stack := Ty.error ("index-out-range".toList) :: s }) ∧
      (n.floor.toNat < l.length →
        execCommand f ex ("del".toList)
          = some { ex with stack := Ty.list (l.eraseIdx n.floor.toNat) :: s })) := by
  obtain ⟨st, mem, mo⟩ := ex
  refine ⟨fun h => ?_, fun h => ?_, fun h => ?_⟩ <;> simp only at h <;> subst h
  · constructor
    · intro hge
      have : ¬n.floor.toNat < l.length := by omega
      simp [execCommand, execCommandWith, popStack, push, Ty.getNumber, Ty.getList, this]
    · intro hlt
      simp [execCommand, execCommandWith, popStack, push, Ty.getNumber, Ty.getList, hlt]
  · constructor
    · intro hge
      have : ¬n.floor.toNat < l.length := by omega
      simp [execCommand, execCommandWith, popStack, push, Ty.getNumber, Ty.getList, this]
    · intro hlt
      simp [execCommand, execCommandWith, popStack, push, Ty.getNumber, Ty.getList, hlt]
  · constructor
    · intro hge
      have : ¬n.floor.toNat < l.length := by omega
      simp [execCommand, execCommandWith, popStack, push, Ty.getNumber, Ty.getList, this]
    · intro hlt
      simp [execCommand, execCommandWith, popStack, push, Ty.getNumber, Ty.getList, hlt]

/-- C8 witness: `get` at index 5 of a three-element list yields
`Error index-out-range`, and at index 1 yields the element. -/
theorem c8_index_out_range_witness :
    (execCommand 1 ⟨[Ty.num 5, Ty.list [Ty.num 10, Ty.num 20, Ty.num 30]], [], Mode.script⟩
        ("get".toList)
      = some ⟨[Ty.error ("index-out-range".toList)], [], Mode.script⟩) ∧
    (execCommand 1 ⟨[Ty.num 1, Ty.list [Ty.num 10, Ty.num 20, Ty.num 30]], [], Mode.script⟩
        ("get".toList)
      = some ⟨[Ty.num 20], [], Mode.script⟩) :=
  ⟨((c8_index_out_range 1
        ⟨[Ty.num 5, Ty.list [Ty.num 10, Ty.num 20, Ty.num 30]], [], Mode.script⟩ 5
        [Ty.num 10, Ty.num 20, Ty.num 30] (Ty.num 0) []).1 rfl).1 (by decide),
    ((c8_index_out_range 1
        ⟨[Ty.num 1, Ty.list [Ty.num 10, Ty.num 20, Ty.num 30]], [], Mode.script⟩ 1
        [Ty.num 10, Ty.num 20, Ty.num 30] (Ty.num 0) []).1 rfl).2 (by decide)⟩

/-- A token headed by a character that is no digit, sign, or decimal point
never parses as a number. -/
theorem parseDec_cons_none {c : Char} (xs : List Char) (hd : ¬c.isDigit = true)
    (h1 : c ≠ '+') (h2 : c ≠ '-') (h3 : c ≠ '.') : parseDec (c :: xs) = none := by
  have hsplit : splitDigits (c :: xs) = ([], c :: xs) := by
    rw [splitDigits]
    simp [hd]
  have hu : parseUnsigned (c :: xs) = none := by
    simp only [parseUnsigned, hsplit]
    split
    · rename_i heq
      simp at heq
    · rename_i frac heq
      injection heq with hh _
      exact absurd hh h3
    · rfl
  simp only [parseDec]
  split
  · rename_i rest heq
    injection heq with hh _
    exact absurd hh h1
  · rename_i rest heq
    injection heq with hh _
    exact absurd hh h2
  · exact hu

/-- Lists with different head characters differ. -/
theorem cons_ne_of_head_ne {c d : Char} {cs ds : List Char} (h : c ≠ d) :
    c :: cs ≠ d :: ds := by
  intro he
  injection he with hh _
  exact absurd hh h

/-- C10: the list-literal branch of `evaluate_program` does not protect the
enclosing stack: after the inner program runs, only the net stack growth
(measured against the pre-evaluation length, truncated at zero) is popped
into the List, so anything the inner program removed stays removed, and
when the stack ended no longer than it began the pushed List is empty and
the inner program's final stack is kept as is. -/
theorem c10_list_literal (f : Nat) (ex ex1 : Executor) (inner : List Char)
    (hrun : evalProgram f ex inner = some ex1) :
    evalToken f ex ('[' :: inner ++ [']'])
      = some (push (Ty.list ((ex1.stack.take (ex1.stack.length - ex.stack.length)).reverse))
          { ex1 with stack := ex1.stack.drop (ex1.stack.length - ex.stack.length) }) ∧
    (ex1.stack.length ≤ ex.stack.length →
      evalToken f ex ('[' :: inner ++ [']']) = some (push (Ty.list []) ex1)) := by
  have hlast : ('[' :: (inner ++ [']'])).getLast (List.cons_ne_nil _ _) = ']' :=
    List.getLast_concat (l := '[' :: inner)
  have hparse : parseDec ('[' :: (inner ++ [']'])) = none :=
    parseDec_cons_none _ (by decide) (by decide) (by decide) (by decide)
  have htrue : ¬('[' :: (inner ++ [']']) = "true".toList ∨
      '[' :: (inner ++ [']']) = "false".toList) := by
    rintro (habs | habs) <;> exact cons_ne_of_head_ne (by decide) habs
  have hmain : evalToken f ex ('[' :: inner ++ [']'])
      = some (push (Ty.list ((ex1.stack.take (ex1.stack.length - ex.stack.length)).reverse))
          { ex1 with stack := ex1.stack.drop (ex1.stack.length - ex.stack.length) }) := by
    obtain ⟨s1, m1, mo1⟩ := ex1
    rw [show evalToken f ex ('[' :: inner ++ [']'])
        = evalTokenWith (evalProgram f) ex ('[' :: (inner ++ [']'])) from rfl]
    rw [evalTokenWith]
    simp only [hparse]
    rw [if_neg htrue]
    rw [if_neg (fun hand => absurd hand.1 (by decide : ¬('[' : Char) = '('))]
    have hcond : True ∧
        ('[' :: (inner ++ [']'])).getLast (List.cons_ne_nil _ _) = ']' := ⟨trivial, hlast⟩
    rw [if_pos hcond]
    have hslice : (('[' :: (inner ++ [']'])).drop 1).dropLast = inner := by simp
    rw [hslice]
    simp only [hrun]
    have hle : s1.length - ex.stack.length ≤ s1.length := Nat.sub_le _ _
    simp only [popN_take _ s1 m1 mo1 hle]
  refine ⟨hmain, fun hle => ?_⟩
  rw [hmain]
  have h0 : ex1.stack.length - ex.stack.length = 0 := Nat.sub_eq_zero_of_le hle
  rw [h0]
  simp

/-- C10 witness: a list literal whose inner program pops the only stack
value yields the empty List over the shrunken stack (the popped value is
not restored). -/
theorem c10_list_literal_witness :
    evalProgram 5 ⟨[Ty.num 1], [], Mode.script⟩ ("pop".toList) = some ⟨[], [], Mode.script⟩ ∧
    evalToken 5 ⟨[Ty.num 1], [], Mode.script⟩ ("[pop]".toList)
      = some (push (Ty.list []) ⟨[], [], Mode.script⟩) := by
  refine ⟨rfl, ?_⟩
  exact (c10_list_literal 5 ⟨[Ty.num 1], [], Mode.script⟩ ⟨[], [], Mode.script⟩
    ("pop".toList) rfl).2 (by decide)

set_option maxHeartbeats 1000000 in
/-- A lexer step emits nothing or the (non-empty) buffer. -/
theorem lexStep_emit (st : LexSt) (c : Char) :
    (lexStep st c).2 = [] ∨
      ((lexStep st c).2 = [st.buffer] ∧ ¬st.buffer.isEmpty = true) := by
  unfold lexStep
  by_cases h1 : c = '\\' ∧ ¬st.escape = true
  · rw [if_pos h1]; exact Or.inl rfl
  rw [if_neg h1]
  by_cases h2 : c = '(' ∧ ¬st.hash = true ∧ ¬st.escape = true
  · rw [if_pos h2]; exact Or.inl rfl
  rw [if_neg h2]
  by_cases h3 : c = ')' ∧ ¬st.hash = true ∧ ¬st.escape = true
  · rw [if_pos h3]; exact Or.inl rfl
  rw [if_neg h3]
  by_cases h4 : c = '#' ∧ ¬st.hash = true ∧ ¬st.escape = true
  · rw [if_pos h4]; exact Or.inl rfl
  rw [if_neg h4]
  by_cases h5 : c = '#' ∧ st.hash = true ∧ ¬st.escape = true
  · rw [if_pos h5]; exact Or.inl rfl
  rw [if_neg h5]
  by_cases h6 : c = '[' ∧ ¬st.hash = true ∧ st.brackets = 0 ∧ ¬st.escape = true
  · rw [if_pos h6]; exact Or.inl rfl
  rw [if_neg h6]
  by_cases h7 : c = ']' ∧ ¬st.hash = true ∧ st.brackets = 0 ∧ ¬st.escape = true
  · rw [if_pos h7]; exact Or.inl rfl
  rw [if_neg h7]
  by_cases h8 : c = ' ' ∧ ¬st.hash = true ∧ st.parens = 0 ∧ st.brackets = 0 ∧
      ¬st.escape = true
  · rw [if_pos h8]
    by_cases h9 : st.buffer.isEmpty = true
    · rw [if_pos h9]; exact Or.inl rfl
    · rw [if_neg h9]; exact Or.inr ⟨rfl, h9⟩
  · rw [if_neg h8]; exact Or.inl rfl

/-- A single lexer step only flushes non-empty tokens. -/
theorem lexStep_ne_nil (st : LexSt) (c : Char) : ∀ t ∈ (lexStep st c).2, t ≠ [] := by
  intro t ht
  rcases lexStep_emit st c with h | ⟨h, hne⟩
  · rw [h] at ht
    simp at ht
  · rw [h] at ht
    simp only [List.mem_singleton] at ht
    subst ht
    simpa [List.isEmpty_iff] using hne

/-- Every token flushed by a lexer run is non-empty. -/
theorem lexRun_ne_nil (cs : List Char) : ∀ st t, t ∈ (lexRun st cs).2 → t ≠ [] := by
  induction cs with
  | nil => simp [lexRun]
  | cons c cs ih =>
    intro st t ht
    rcases hs : lexStep st c with ⟨st1, e⟩
    rcases hr : lexRun st1 cs with ⟨st2, out⟩
    simp only [lexRun, hs, hr, List.mem_append] at ht
    rcases ht with h | h
    · exact lexStep_ne_nil st c t (by rw [hs]; exact h)
    · exact ih st1 t (by rw [hr]; exact h)

/-- C9: every token produced by the lexer is a non-empty string, so the
evaluator's accesses to a token's first and last character are in bounds on
lexer output (its head and last character exist). -/
theorem c9_tokens_nonempty (code : List Char) (t : List Char) (ht : t ∈ tokenize code) :
    t ≠ [] ∧ t.head?.isSome ∧ t.getLast?.isSome := by
  have hne : t ≠ [] := by
    unfold tokenize at ht
    rcases hr : lexRun lexInit (code.map normChar) with ⟨st, out⟩
    rw [hr] at ht
    simp only at ht
    by_cases hb : st.buffer.isEmpty
    · rw [if_pos hb] at ht
      exact lexRun_ne_nil _ lexInit t (by rw [hr]; exact ht)
    · rw [if_neg hb] at ht
      rcases List.mem_append.1 ht with h | h
      · exact lexRun_ne_nil _ lexInit t (by rw [hr]; exact h)
      · have : t = st.buffer := by simpa using h
        subst this
        simpa [List.isEmpty_iff] using hb
  exact ⟨hne, by simp [List.head?_isSome, hne], by simp [List.getLast?_isSome, hne]⟩

/-- C9 witness: a concrete token of a concrete lexer run is non-empty with
existing first and last characters. -/
theorem c9_tokens_nonempty_witness :
    ("ab".toList ≠ [] ∧ "ab".toList.head?.isSome ∧ "ab".toList.getLast?.isSome) :=
  c9_tokens_nonempty ("ab x".toList) ("ab".toList) (by decide)

/-- C7: `reduce` initialises the accumulator slot in memory to the empty
String before the first element (first conjunct: the command is exactly the
element loop started from that memory); after each element the top of the
stack produced by the body is stored into the accumulator slot (second
conjunct); and any completed loop pushes the final accumulator value onto
the stack while resetting the slot to the empty String (third conjunct). -/
theorem c7_reduce (f : Nat) (ex : Executor) (cv nv av lv : Ty) (s : List Ty)
    (h : ex.stack = cv :: nv :: av :: lv :: s) :
    execCommand f ex ("reduce".toList)
      = reduceLoop f cv.getString nv.getString av.getString
          { ex with
              stack := s
              memory := memInsert av.getString (Ty.str []) ex.memory } lv.getList ∧
    (∀ code nowVar acc (exL : Executor) (x : Ty) rest exB,
      evalProgram f { exL with memory := memInsert nowVar x exL.memory } code = some exB →
      reduceLoop f code nowVar acc exL (x :: rest)
        = reduceLoop f code nowVar acc
            { (popStack exB).2 with
              memory := memInsert acc (popStack exB).1 ((popStack exB).2).memory } rest) ∧
    (∀ code nowVar acc (exL : Executor) l ex2,
      reduceLoop f code nowVar acc exL l = some ex2 →
      memGet acc ex2.memory = some (Ty.str []) ∧
      ∃ pre : Executor,
        ex2 = { pre with
                  stack := (memGet acc pre.memory).getD (Ty.str []) :: pre.stack
                  memory := memInsert acc (Ty.str []) pre.memory } ∧
        (l = [] → pre = exL)) := by
  refine ⟨?_, ?_, ?_⟩
  · obtain ⟨st, mem, mo⟩ := ex
    simp only at h
    subst h
    rfl
  · intro code nowVar acc exL x rest exB he
    rcases hp : popStack exB with ⟨r, ex3⟩
    rw [show reduceLoop f code nowVar acc exL (x :: rest)
        = reduceLoopWith (evalProgram f) code nowVar acc exL (x :: rest) from rfl]
    simp only [reduceLoopWith, he, hp]
    rfl
  · intro code nowVar acc exL l
    induction l generalizing exL with
    | nil =>
      intro ex2 h2
      rw [show reduceLoop f code nowVar acc exL []
          = reduceLoopWith (evalProgram f) code nowVar acc exL [] from rfl] at h2
      rw [reduceLoopWith] at h2
      simp only [Option.some.injEq] at h2
      subst h2
      refine ⟨by simp [memGet_memInsert_self], exL, rfl, fun _ => rfl⟩
    | cons x rest ih =>
      intro ex2 h2
      rw [show reduceLoop f code nowVar acc exL (x :: rest)
          = reduceLoopWith (evalProgram f) code nowVar acc exL (x :: rest) from rfl] at h2
      rcases he : evalProgram f { exL with memory := memInsert nowVar x exL.memory } code with
        _ | exB
      · rw [reduceLoopWith, he] at h2
        simp at h2
      · rcases hp : popStack exB with ⟨r, ex3⟩
        simp only [reduceLoopWith, he, hp] at h2
        obtain ⟨h21, pre, h22, -⟩ := ih _ _ h2
        exact ⟨h21, pre, h22, fun habs => by simp at habs⟩

/-- C7 witness: a concrete `reduce` of `(n)` over `[1 2]` with accumulator
`a` pushes the final accumulator value `2` and leaves the slot reset to the
empty String. -/
theorem c7_reduce_witness :
    execCommand 8 ⟨[Ty.str ("n".toList), Ty.str ("n".toList), Ty.str ("a".toList),
        Ty.list [Ty.num 1, Ty.num 2]], [], Mode.script⟩ ("reduce".toList)
      = some ⟨[Ty.num 2], [("a".toList, Ty.str []), ("n".toList, Ty.num 2)], Mode.script⟩ ∧
    memGet ("a".toList)
        (⟨[Ty.num 2], [("a".toList, Ty.str []), ("n".toList, Ty.num 2)],
          Mode.script⟩ : Executor).memory
      = some (Ty.str []) := by
  have h := c7_reduce 8 ⟨[Ty.str ("n".toList), Ty.str ("n".toList), Ty.str ("a".toList),
      Ty.list [Ty.num 1, Ty.num 2]], [], Mode.script⟩ (Ty.str ("n".toList))
      (Ty.str ("n".toList)) (Ty.str ("a".toList)) (Ty.list [Ty.num 1, Ty.num 2]) [] rfl
  refine ⟨h.1.trans rfl, ?_⟩
  exact (h.2.2 ("n".toList) ("n".toList) ("a".toList)
      ⟨[], [("a".toList, Ty.str [])], Mode.script⟩ [Ty.num 1, Ty.num 2]
      ⟨[Ty.num 2], [("a".toList, Ty.str []), ("n".toList, Ty.num 2)], Mode.script⟩ rfl).1

/-- C5 counterexample: the token `error:error:x` pushes `Error "x"` (the
source removes every occurrence of `error:`), not `Error "error:x"` as the
claim's verbatim-remainder reading requires. -/
theorem c5_error_counterexample :
    evalProgram 2 ⟨[], [], Mode.script⟩ ("error:error:x".toList)
      = some ⟨[Ty.error ("x".toList)], [], Mode.script⟩ ∧
    ("x".toList : List Char) ≠ "error:x".toList :=
  ⟨rfl, by decide⟩

/-- `str::replace` is the identity when the pattern does not occur. -/
theorem replaceErr_of_not_occurs : ∀ s : List Char, occursErr s = false → replaceErr s = s := by
  intro s h
  induction s using replaceErr.induct with
  | case1 rest => simp [occursErr] at h
  | case2 c cs ih =>
    rw [replaceErr.eq_2] <;> simp_all [occursErr]
  | case3 => rfl

/-- C5 amended: a token beginning with `error:` pushes an Error whose kind
is the token with every occurrence of `error:` removed; when the remainder
after the leading prefix contains no further occurrence, that is exactly
the verbatim remainder. -/
theorem c5_error_literal (f : Nat) (ex : Executor) (rest : List Char)
    (hocc : occursErr rest = false) :
    evalToken f ex ("error:".toList ++ rest) = some (push (Ty.error rest) ex) := by
  have hparse : parseDec ('e' :: ("rror:".toList ++ rest)) = none :=
    parseDec_cons_none _ (by decide) (by decide) (by decide) (by decide)
  have htrue : ¬('e' :: ("rror:".toList ++ rest) = "true".toList ∨
      'e' :: ("rror:".toList ++ rest) = "false".toList) := by
    rintro (habs | habs) <;> exact cons_ne_of_head_ne (by decide) habs
  have hpre : List.isPrefixOf ("error:".toList) ('e' :: ("rror:".toList ++ rest)) = true := by
    rw [List.isPrefixOf_iff_prefix]
    exact List.prefix_append ("error:".toList) rest
  rw [show evalToken f ex ("error:".toList ++ rest)
      = evalTokenWith (evalProgram f) ex ('e' :: ("rror:".toList ++ rest)) from rfl]
  rw [evalTokenWith]
  simp only [hparse]
  rw [if_neg htrue]
  rw [if_neg (fun hand => absurd hand.1 (by decide : ¬('e' : Char) = '('))]
  rw [if_neg (fun hand => absurd hand.1 (by decide : ¬('e' : Char) = '['))]
  rw [if_pos hpre]
  rw [show replaceErr ('e' :: ("rror:".toList ++ rest)) = replaceErr rest from rfl]
  rw [replaceErr_of_not_occurs rest hocc]

/-- C5 witness: evaluating the token `error:x` pushes `Error "x"`. -/
theorem c5_error_literal_witness :
    evalToken 1 ⟨[], [], Mode.script⟩ ("error:x".toList)
      = some (push (Ty.error ("x".toList)) ⟨[], [], Mode.script⟩) :=
  c5_error_literal 1 ⟨[], [], Mode.script⟩ ("x".toList) (by decide)

/-! ## C3: re-lexing the space-joined token output -/

/-- Balanced delimiters in the sense of the lexer: after scanning the
(normalised) source the `(`/`)` and `[`/`]` depths are back to zero and no
`#`…`#` comment is open. -/
def balanced (code : List Char) : Prop :=
  (lexRun lexInit (code.map normChar)).1.brackets = 0 ∧
    (lexRun lexInit (code.map normChar)).1.parens = 0 ∧
    (lexRun lexInit (code.map normChar)).1.hash = false

/-- A well-behaved token: scanning it alone from the initial state flushes
nothing, rebuilds exactly itself in the buffer, returns to the zero
counters, and all of its characters are whitespace-normalisation fixed
points. -/
def goodTok (t : List Char) : Prop :=
  lexRun lexInit t = (⟨t, 0, 0, false, false⟩, []) ∧ t ≠ [] ∧ ∀ c ∈ t, normChar c = c

/-- A trailing token: like `goodTok` but the final counters are arbitrary
(the last token is flushed by the end of input, not by a space). -/
def lastTok (t : List Char) : Prop :=
  (∃ st : LexSt, lexRun lexInit t = (st, []) ∧ st.buffer = t) ∧
    t ≠ [] ∧ ∀ c ∈ t, normChar c = c

theorem goodTok_lastTok {t : List Char} (h : goodTok t) : lastTok t :=
  ⟨⟨_, h.1, rfl⟩, h.2.1, h.2.2⟩

/-- C3 counterexample: the two-character source `\\` (a backslash-escaped
backslash) is balanced, lexes to the single token `\`, but re-lexing the
space-joined output gives the empty token list — the lone backslash sets
the escape flag and the buffer stays empty. -/
theorem c3_relex_counterexample :
    balanced ['\\', '\\'] ∧
    tokenize ['\\', '\\'] = [['\\']] ∧
    tokenize (List.intercalate [' '] (tokenize ['\\', '\\'])) = [] ∧
    tokenize (List.intercalate [' '] (tokenize ['\\', '\\'])) ≠ tokenize ['\\', '\\'] := by
  refine ⟨⟨rfl, rfl, rfl⟩, rfl, rfl, ?_⟩
  decide

/-- A lexer run over an appended input decomposes into two runs. -/
theorem lexRun_append (st : LexSt) (xs ys : List Char) :
    lexRun st (xs ++ ys)
      = ((lexRun (lexRun st xs).1 ys).1,
         (lexRun st xs).2 ++ (lexRun (lexRun st xs).1 ys).2) := by
  induction xs generalizing st with
  | nil => simp [lexRun]
  | cons c xs ih =>
    rcases hs : lexStep st c with ⟨st1, e⟩
    simp [lexRun, hs, ih st1]

/-- Normalisation maps no other character to a backslash. -/
theorem normChar_ne_backslash {c : Char} (hc : c ≠ '\\') : normChar c ≠ '\\' := by
  unfold normChar
  split_ifs
  · decide
  · exact hc

/-- Whitespace normalisation is idempotent. -/
theorem normChar_idem (c : Char) : normChar (normChar c) = normChar c := by
  unfold normChar
  split_ifs with h1 h2 <;> simp_all

/-- Invariant of the lexer scan (under inputs without backslashes): the
current buffer replays to the current state without flushing anything, the
escape flag is clear, and the buffer's characters are normalisation fixed
points. -/
def lexInv (st : LexSt) : Prop :=
  lexRun lexInit st.buffer = (st, []) ∧ st.escape = false ∧
    ∀ c ∈ st.buffer, normChar c = c

theorem lexInv_init : lexInv lexInit :=
  ⟨rfl, rfl, by simp [lexInit]⟩

/-- Extending the invariant by one buffered character. -/
theorem lexInv_extend {st st' : LexSt} {c : Char} (hinv : lexInv st)
    (hst : lexStep st c = (st', [])) (hbuf : st'.buffer = st.buffer ++ [c])
    (hesc : st'.escape = false) (hc : normChar c = c) : lexInv st' := by
  refine ⟨?_, hesc, ?_⟩
  · have h1 : lexRun st [c] = (st', []) := by
      simp [lexRun, hst]
    rw [hbuf, lexRun_append, hinv.1]
    simp [h1]
  · intro d hd
    rw [hbuf] at hd
    rcases List.mem_append.1 hd with h | h
    · exact hinv.2.2 d h
    · have : d = c := by simpa using h
      subst this
      exact hc

set_option maxHeartbeats 1000000 in
/-- One scanner step preserves the invariant and only flushes well-behaved
tokens, provided the character is no backslash and normalisation-fixed. -/
theorem lexStep_inv (st : LexSt) (c : Char) (hinv : lexInv st) (hc : c ≠ '\\')
    (hn : normChar c = c) :
    lexInv (lexStep st c).1 ∧ ∀ t ∈ (lexStep st c).2, goodTok t := by
  have hesc : st.escape = false := hinv.2.1
  by_cases h1 : c = '\\' ∧ ¬st.escape = true
  · exact absurd h1.1 hc
  by_cases h2 : c = '(' ∧ ¬st.hash = true ∧ ¬st.escape = true
  · have hst : lexStep st c
        = ({ st with brackets := st.brackets + 1, buffer := st.buffer ++ ['('] }, []) := by
      unfold lexStep
      rw [if_neg h1, if_pos h2]
    refine ⟨?_, ?_⟩
    · rw [hst]
      exact lexInv_extend hinv hst (by rw [h2.1]) hesc hn
    · intro t ht
      rw [hst] at ht
      simp at ht
  by_cases h3 : c = ')' ∧ ¬st.hash = true ∧ ¬st.escape = true
  · have hst : lexStep st c
        = ({ st with brackets := st.brackets - 1, buffer := st.buffer ++ [')'] }, []) := by
      unfold lexStep
      rw [if_neg h1, if_neg h2, if_pos h3]
    refine ⟨?_, ?_⟩
    · rw [hst]
      exact lexInv_extend hinv hst (by rw [h3.1]) hesc hn
    · intro t ht
      rw [hst] at ht
      simp at ht
  by_cases h4 : c = '#' ∧ ¬st.hash = true ∧ ¬st.escape = true
  · have hst : lexStep st c
        = ({ st with hash := true, buffer := st.buffer ++ ['#'] }, []) := by
      unfold lexStep
      rw [if_neg h1, if_neg h2, if_neg h3, if_pos h4]
    refine ⟨?_, ?_⟩
    · rw [hst]
      exact lexInv_extend hinv hst (by rw [h4.1]) hesc hn
    · intro t ht
      rw [hst] at ht
      simp at ht
  by_cases h5 : c = '#' ∧ st.hash = true ∧ ¬st.escape = true
  · have hst : lexStep st c
        = ({ st with hash := false, buffer := st.buffer ++ ['#'] }, []) := by
      unfold lexStep
      rw [if_neg h1, if_neg h2, if_neg h3, if_neg h4, if_pos h5]
    refine ⟨?_, ?_⟩
    · rw [hst]
      exact lexInv_extend hinv hst (by rw [h5.1]) hesc hn
    · intro t ht
      rw [hst] at ht
      simp at ht
  by_cases h6 : c = '[' ∧ ¬st.hash = true ∧ st.brackets = 0 ∧ ¬st.escape = true
  · have hst : lexStep st c
        = ({ st with parens := st.parens + 1, buffer := st.buffer ++ ['['] }, []) := by
      unfold lexStep
      rw [if_neg h1, if_neg h2, if_neg h3, if_neg h4, if_neg h5, if_pos h6]
    refine ⟨?_, ?_⟩
    · rw [hst]
      exact lexInv_extend hinv hst (by rw [h6.1]) hesc hn
    · intro t ht
      rw [hst] at ht
      simp at ht
  by_cases h7 : c = ']' ∧ ¬st.hash = true ∧ st.brackets = 0 ∧ ¬st.escape = true
  · have hst : lexStep st c
        = ({ st with parens := st.parens - 1, buffer := st.buffer ++ [']'] }, []) := by
      unfold lexStep
      rw [if_neg h1, if_neg h2, if_neg h3, if_neg h4, if_neg h5, if_neg h6, if_pos h7]
    refine ⟨?_, ?_⟩
    · rw [hst]
      exact lexInv_extend hinv hst (by rw [h7.1]) hesc hn
    · intro t ht
      rw [hst] at ht
      simp at ht
  by_cases h8 : c = ' ' ∧ ¬st.hash = true ∧ st.parens = 0 ∧ st.brackets = 0 ∧
      ¬st.escape = true
  · have hse : st = ⟨st.buffer, 0, 0, false, false⟩ := by
      obtain ⟨b, br, p, hh, e⟩ := st
      have hbr : br = 0 := h8.2.2.2.1
      have hp : p = 0 := h8.2.2.1
      have hhh : hh = false := by simpa using h8.2.1
      have he : e = false := hesc
      subst hbr
      subst hp
      subst hhh
      subst he
      rfl
    by_cases h9 : st.buffer.isEmpty = true
    · have hst : lexStep st c = (st, []) := by
        unfold lexStep
        rw [if_neg h1, if_neg h2, if_neg h3, if_neg h4, if_neg h5, if_neg h6, if_neg h7,
          if_pos h8, if_pos h9]
      refine ⟨?_, ?_⟩
      · rw [hst]
        exact hinv
      · intro t ht
        rw [hst] at ht
        simp at ht
    · have hst : lexStep st c = ({ st with buffer := [] }, [st.buffer]) := by
        unfold lexStep
        rw [if_neg h1, if_neg h2, if_neg h3, if_neg h4, if_neg h5, if_neg h6, if_neg h7,
          if_pos h8, if_neg h9]
      have hzero : ({ st with buffer := [] } : LexSt) = lexInit := by
        rw [hse]
        rfl
      refine ⟨?_, ?_⟩
      · rw [hst]
        rw [show ((({ st with buffer := [] } : LexSt), [st.buffer]).1) = lexInit from hzero]
        exact lexInv_init
      · intro t ht
        rw [hst] at ht
        simp only [List.mem_singleton] at ht
        subst ht
        refine ⟨?_, by simpa [List.isEmpty_iff] using h9, hinv.2.2⟩
        calc lexRun lexInit st.buffer = (st, []) := hinv.1
          _ = (⟨st.buffer, 0, 0, false, false⟩, []) := by rw [← hse]
  · have hst : lexStep st c
        = ({ st with buffer := st.buffer ++ [c], escape := false }, []) := by
      unfold lexStep
      rw [if_neg h1, if_neg h2, if_neg h3, if_neg h4, if_neg h5, if_neg h6, if_neg h7,
        if_neg h8]
      simp [hesc]
    refine ⟨?_, ?_⟩
    · rw [hst]
      exact lexInv_extend hinv hst rfl rfl hn
    · intro t ht
      rw [hst] at ht
      simp at ht

/-- The scan invariant over a whole run: the final state satisfies it and
every flushed token is well-behaved. -/
theorem lexRun_inv (cs : List Char) (st : LexSt) (hinv : lexInv st)
    (hcs : ∀ c ∈ cs, c ≠ '\\' ∧ normChar c = c) :
    lexInv (lexRun st cs).1 ∧ ∀ t ∈ (lexRun st cs).2, goodTok t := by
  induction cs generalizing st with
  | nil =>
    constructor
    · simpa [lexRun] using hinv
    · simp [lexRun]
  | cons c cs ih =>
    rcases hs : lexStep st c with ⟨st1, e⟩
    rcases hr : lexRun st1 cs with ⟨st2, out⟩
    have hstep := lexStep_inv st c hinv (hcs c (by simp)).1 (hcs c (by simp)).2
    rw [hs] at hstep
    have hrec := ih st1 hstep.1 (fun d hd => hcs d (by simp [hd]))
    rw [hr] at hrec
    constructor
    · simpa [lexRun, hs, hr] using hrec.1
    · intro t ht
      simp only [lexRun, hs, hr, List.mem_append] at ht
      rcases ht with h | h
      · exact hstep.2 t h
      · exact hrec.2 t h

/-- Splitting a single-space join over a leading token. -/
theorem intercalate_space_cons (t : List Char) (ts : List (List Char)) (hne : ts ≠ []) :
    List.intercalate [' '] (t :: ts) = t ++ ' ' :: List.intercalate [' '] ts := by
  cases ts with
  | nil => exact absurd rfl hne
  | cons u us => simp [List.intercalate, List.intersperse]

/-- Characters of a single-space join come from the tokens or are spaces. -/
theorem mem_intercalate_space {c : Char} {ts : List (List Char)}
    (hc : c ∈ List.intercalate [' '] ts) : c = ' ' ∨ ∃ t ∈ ts, c ∈ t := by
  induction ts with
  | nil => simp [List.intercalate] at hc
  | cons t ts ih =>
    cases ts with
    | nil =>
      simp [List.intercalate] at hc
      exact Or.inr ⟨t, by simp, hc⟩
    | cons u us =>
      rw [intercalate_space_cons t (u :: us) (by simp)] at hc
      rcases List.mem_append.1 hc with h | h
      · exact Or.inr ⟨t, by simp, h⟩
      · rcases List.mem_cons.1 h with h' | h'
        · exact Or.inl h'
        · rcases ih h' with h'' | ⟨v, hv, hcv⟩
          · exact Or.inl h''
          · exact Or.inr ⟨v, by simp [hv], hcv⟩

/-- Mapping a pointwise-fixed function over a list is the identity. -/
theorem map_id_of_fixed {l : List Char} (h : ∀ c ∈ l, normChar c = c) :
    l.map normChar = l := by
  induction l with
  | nil => rfl
  | cons c cs ih =>
    simp only [List.map_cons, h c (by simp), ih (fun d hd => h d (by simp [hd]))]

/-- Replaying the join of well-behaved tokens followed by a trailing token:
the run flushes exactly the leading tokens and ends with the trailing token
in the buffer. -/
theorem replay_run (ts : List (List Char)) (t0 : List Char)
    (hg : ∀ t ∈ ts, goodTok t) (hl : lastTok t0) :
    ∃ st : LexSt, lexRun lexInit (List.intercalate [' '] (ts ++ [t0])) = (st, ts) ∧
      st.buffer = t0 := by
  induction ts with
  | nil =>
    obtain ⟨⟨st, h1, h2⟩, hne, hch⟩ := hl
    refine ⟨st, ?_, h2⟩
    simpa [List.intercalate] using h1
  | cons t ts ih =>
    have hgt : goodTok t := hg t (by simp)
    obtain ⟨hrunT, hneT, -⟩ := hgt
    obtain ⟨st, hrec1, hrec2⟩ := ih (fun u hu => hg u (by simp [hu]))
    refine ⟨st, ?_, hrec2⟩
    have hform : List.intercalate [' '] ((t :: ts) ++ [t0])
        = t ++ ([' '] ++ List.intercalate [' '] (ts ++ [t0])) := by
      rw [show (t :: ts) ++ [t0] = t :: (ts ++ [t0]) from rfl]
      rw [intercalate_space_cons t (ts ++ [t0]) (by simp)]
      rfl
    rw [hform]
    rw [lexRun_append, hrunT]
    have hsp : lexRun (⟨t, 0, 0, false, false⟩ : LexSt) [' '] = (lexInit, [t]) := by
      have hstep0 : lexStep (⟨t, 0, 0, false, false⟩ : LexSt) ' '
          = if t.isEmpty then ((⟨t, 0, 0, false, false⟩ : LexSt), [])
            else (lexInit, [t]) := rfl
      have hstep1 : lexStep (⟨t, 0, 0, false, false⟩ : LexSt) ' ' = (lexInit, [t]) := by
        rw [hstep0, if_neg (by simpa [List.isEmpty_iff] using hneT)]
      simp [lexRun, hstep1]
    rw [show ((⟨t, 0, 0, false, false⟩ : LexSt), ([] : List (List Char))).1
        = (⟨t, 0, 0, false, false⟩ : LexSt) from rfl]
    rw [lexRun_append, hsp]
    simp only []
    rw [hrec1]
    simp

/-- Re-lexing the join of well-behaved tokens plus a trailing token gives
the tokens back. -/
theorem replay_main (ts : List (List Char)) (t0 : List Char)
    (hg : ∀ t ∈ ts, goodTok t) (hl : lastTok t0) :
    tokenize (List.intercalate [' '] (ts ++ [t0])) = ts ++ [t0] := by
  obtain ⟨st, hrun, hbuf⟩ := replay_run ts t0 hg hl
  have hnorm : (List.intercalate [' '] (ts ++ [t0])).map normChar
      = List.intercalate [' '] (ts ++ [t0]) := by
    apply map_id_of_fixed
    intro c hcmem
    rcases mem_intercalate_space hcmem with rfl | ⟨t, htm, hct⟩
    · rfl
    · rcases List.mem_append.1 htm with h | h
      · exact (hg t h).2.2 c hct
      · have : t = t0 := by simpa using h
        subst this
        exact hl.2.2 c hct
  unfold tokenize
  rw [hnorm, hrun]
  simp only []
  rw [if_neg (by rw [hbuf]; simpa [List.isEmpty_iff] using hl.2.1)]
  rw [hbuf]

/-- Re-lexing the join of a list of well-behaved tokens gives it back. -/
theorem replay_all (ts : List (List Char)) (hg : ∀ t ∈ ts, goodTok t) :
    tokenize (List.intercalate [' '] ts) = ts := by
  rcases List.eq_nil_or_concat ts with rfl | ⟨ts', t0, rfl⟩
  · rfl
  · rw [List.concat_eq_append] at hg ⊢
    exact replay_main ts' t0 (fun u hu => hg u (by simp [hu]))
      (goodTok_lastTok (hg t0 (by simp)))

/-- C3 amended: for sources with balanced delimiters and no backslash,
re-lexing the space-joined token output yields the same token list.  (The
backslash restriction is forced by the counterexample: escape processing
can bake spaces into tokens or drop trailing escapes.) -/
theorem c3_relex_amended (code : List Char) (hbal : balanced code)
    (hbs : '\\' ∉ code) :
    tokenize (List.intercalate [' '] (tokenize code)) = tokenize code := by
  rcases hr : lexRun lexInit (code.map normChar) with ⟨st, out⟩
  have hcs : ∀ c ∈ code.map normChar, c ≠ '\\' ∧ normChar c = c := by
    intro c hcmem
    rcases List.mem_map.1 hcmem with ⟨c0, hc0, rfl⟩
    have hc0ne : c0 ≠ '\\' := fun h => hbs (h ▸ hc0)
    exact ⟨normChar_ne_backslash hc0ne, normChar_idem c0⟩
  have hinv := lexRun_inv (code.map normChar) lexInit lexInv_init hcs
  rw [hr] at hinv
  obtain ⟨⟨hstrun, hstesc, hstch⟩, hgood⟩ := hinv
  have htk : tokenize code = if st.buffer.isEmpty then out else out ++ [st.buffer] := by
    unfold tokenize
    rw [hr]
  by_cases hb : st.buffer.isEmpty = true
  · rw [htk, if_pos hb]
    exact replay_all out hgood
  · rw [htk, if_neg hb]
    have hlast : lastTok st.buffer :=
      ⟨⟨st, hstrun, rfl⟩, by simpa [List.isEmpty_iff] using hb, hstch⟩
    exact replay_main out st.buffer hgood hlast

/-- C3 witness: a concrete balanced, backslash-free source whose token list
is reproduced by re-lexing the space-joined output. -/
theorem c3_relex_amended_witness :
    tokenize (List.intercalate [' '] (tokenize ("ab (c d) [1 2]".toList)))
      = tokenize ("ab (c d) [1 2]".toList) :=
  c3_relex_amended ("ab (c d) [1 2]".toList) ⟨rfl, rfl, rfl⟩ (by decide)

end StackServer
